import Mathlib

/-!
# 3DMath: `Vector3f` and `Quaternion`

A shallow embedding of `src/main.cpp`.  The C++ `float` components are read
over an arbitrary carrier `α`; every operation asks only for the arithmetic
it really uses, so the definitions run on `ℚ` or `ℤ` and the theorems
specialise to `ℝ` for the exact-arithmetic reading.  The `<cmath>` functions
(`std::cos`, `std::sin`, `std::sqrt`, `std::acos`) and `M_PI` are library
code and enter as parameters.  Where a property turns on the special values
of IEEE-754 (`NaN`, `±Inf`, signed zero), the carrier is `Ieee`.
-/

namespace Math3D

/-! ## Vector3f -/

/-- The struct `Vector3f`: three `float` members `x`, `y`, `z`. -/
structure Vector3f (α : Type) where
  x : α
  y : α
  z : α
  deriving DecidableEq, Repr

namespace Vector3f

variable {α : Type}

/-- Source: `Vector3f operator+(const Vector3f& rhb) const`. -/
def add [Add α] (a rhb : Vector3f α) : Vector3f α :=
  ⟨a.x + rhb.x, a.y + rhb.y, a.z + rhb.z⟩

/-- Source: `Vector3f operator-(const Vector3f& rhb) const`. -/
def subtract [Sub α] (a rhb : Vector3f α) : Vector3f α :=
  ⟨a.x - rhb.x, a.y - rhb.y, a.z - rhb.z⟩

/-- Source: `Vector3f operator*(const float d) const`. -/
def scale [Mul α] (a : Vector3f α) (d : α) : Vector3f α :=
  ⟨a.x * d, a.y * d, a.z * d⟩

/-- Source: `Vector3f operator/(const float d) const`. -/
def divide [Div α] (a : Vector3f α) (d : α) : Vector3f α :=
  ⟨a.x / d, a.y / d, a.z / d⟩

/-- A memory of `Vector3f` objects, indexed by address.  `operator+=` takes
its right operand by reference, so its embedding reads both operands through
the memory. -/
abbrev Store (α : Type) := Nat → Vector3f α

/-- Source: `Vector3f& operator+=(const Vector3f& rhb)`: three field assignments on
the object at address `self`, each one reading the object at `rhb` as it is
at that moment. The third statement is `z += rhb.x`. -/
def addInPlace [Add α] (s : Store α) (self rhb : Nat) : Store α :=
  let s1 := Function.update s self { s self with x := (s self).x + (s rhb).x }
  let s2 := Function.update s1 self { s1 self with y := (s1 self).y + (s1 rhb).y }
  Function.update s2 self { s2 self with z := (s2 self).z + (s2 rhb).x }

/-- Source: `Vector3f& operator*=(const float d)`: the scalar is passed by value, so
the receiver is the only object involved. -/
def scaleInPlace [Mul α] (a : Vector3f α) (d : α) : Vector3f α :=
  let a1 := { a with x := a.x * d }
  let a2 := { a1 with y := a1.y * d }
  { a2 with z := a2.z * d }

/-- Source: `Vector3f cross(const Vector3f& rhb) const`. -/
def cross [Sub α] [Mul α] (a rhb : Vector3f α) : Vector3f α :=
  ⟨a.y * rhb.z - a.z * rhb.y, a.z * rhb.x - a.x * rhb.z, a.x * rhb.y - a.y * rhb.x⟩

/-- Source: `float dot(const Vector3f& rhb) const`. -/
def dot [Add α] [Mul α] (a rhb : Vector3f α) : α :=
  a.x * rhb.x + a.y * rhb.y + a.z * rhb.z

/-- Source: `float length() const`, with `std::sqrt` as `sqrt`. -/
def length [Add α] [Mul α] (sqrt : α → α) (a : Vector3f α) : α :=
  sqrt (a.x * a.x + a.y * a.y + a.z * a.z)

/-- Source: `Vector3f normalize() const`, with `std::sqrt` as `sqrt`. -/
def normalize [Add α] [Mul α] [Div α] (sqrt : α → α) (a : Vector3f α) : Vector3f α :=
  let d := sqrt ((a.x * a.x) + (a.y * a.y) + (a.z * a.z))
  a.divide d

/-- Source: `float angleBetween(const Vector3f& rhb) const`, with `std::sqrt` and
`std::acos` as `sqrt` and `acos`. -/
def angleBetween [Add α] [Mul α] [Div α] (sqrt acos : α → α) (a rhb : Vector3f α) : α :=
  acos ((a.dot rhb / rhb.length sqrt) / a.length sqrt)

end Vector3f

/-! ## Quaternion -/

/-- The struct `Quaternion`: the scalar `w` and the three floats `x, y, z`.  The
anonymous union overlays the member `Vector3f v` on the same three floats. -/
structure Quaternion (α : Type) where
  w : α
  x : α
  y : α
  z : α
  deriving DecidableEq, Repr

namespace Quaternion

variable {α : Type}

/-- The union member `v`: the floats `x, y, z` read as a `Vector3f`. -/
def v (a : Quaternion α) : Vector3f α := ⟨a.x, a.y, a.z⟩

/-- Source: `Quaternion(float rad, Vector3f vec)`, with `std::cos` and `std::sin` as
`cos` and `sin`.  `vec` is the constructor's own copy of the argument. -/
def ofAxisAngle [Mul α] (cos sin : α → α) (rad : α) (vec : Vector3f α) : Quaternion α :=
  let w := cos rad
  let vec := vec.scaleInPlace (sin rad)
  ⟨w, vec.x, vec.y, vec.z⟩

/-- Source: `Quaternion operator+(const Quaternion& rhb) const`. -/
def add [Add α] (a rhb : Quaternion α) : Quaternion α :=
  ⟨a.w + rhb.w, a.x + rhb.x, a.y + rhb.y, a.z + rhb.z⟩

/-- Source: `Quaternion operator-(const Quaternion& rhb) const`. -/
def subtract [Sub α] (a rhb : Quaternion α) : Quaternion α :=
  ⟨a.w - rhb.w, a.x - rhb.x, a.y - rhb.y, a.z - rhb.z⟩

/-- Source: `Quaternion operator+(const float d) const`. -/
def addScalar [Add α] (a : Quaternion α) (d : α) : Quaternion α :=
  ⟨a.w + d, a.x, a.y, a.z⟩

/-- Source: `Quaternion operator-(const float d) const`. -/
def subtractScalar [Sub α] (a : Quaternion α) (d : α) : Quaternion α :=
  ⟨a.w - d, a.x, a.y, a.z⟩

/-- Source: `Quaternion operator*(const float d) const`. -/
def scale [Mul α] (a : Quaternion α) (d : α) : Quaternion α :=
  ⟨a.w * d, a.x * d, a.y * d, a.z * d⟩

/-- Source: `Quaternion operator*(const Quaternion& rhb) const`. -/
def multiply [Add α] [Sub α] [Mul α] (a rhb : Quaternion α) : Quaternion α :=
  ⟨a.w * rhb.w - a.x * rhb.x - a.y * rhb.y - a.z * rhb.z,
   a.w * rhb.x + a.x * rhb.w + a.y * rhb.z - a.z * rhb.y,
   a.w * rhb.y - a.x * rhb.z + a.y * rhb.w + a.z * rhb.x,
   a.w * rhb.z + a.x * rhb.y - a.y * rhb.x + a.z * rhb.w⟩

/-- Source: `Quaternion operator/(const float d) const`. -/
def divide [Div α] (a : Quaternion α) (d : α) : Quaternion α :=
  ⟨a.w / d, a.x / d, a.y / d, a.z / d⟩

/-- Source: `Quaternion hamilton(const Quaternion& rhb) const`. -/
def hamilton [Add α] [Sub α] [Mul α] (a rhb : Quaternion α) : Quaternion α :=
  ⟨a.w * rhb.w - a.x * rhb.x - a.y * rhb.y - a.z * rhb.z,
   a.w * rhb.x + a.x * rhb.w + a.y * rhb.z - a.z * rhb.y,
   a.w * rhb.y - a.x * rhb.z + a.y * rhb.w + a.z * rhb.x,
   a.w * rhb.z + a.x * rhb.y - a.y * rhb.x + a.z * rhb.w⟩

/-- Source: `float getScalarPart() const`. -/
def getScalarPart (a : Quaternion α) : α := a.w

/-- Source: `Vector3f getVectorPart() const`: returns the union member `v`. -/
def getVectorPart (a : Quaternion α) : Vector3f α := a.v

end Quaternion

/-! ## Angle helpers and the demo -/

section Helpers

variable {α : Type} [DivisionRing α]

/-- The constant `radMultiplier = 180.0f / M_PI`, with `M_PI` as `pi`. -/
def radMultiplier (pi : α) : α := 180 / pi

/-- Source: `float radToDeg(float rad)`. -/
def radToDeg (pi : α) (rad : α) : α := rad * radMultiplier pi

/-- Source: `float degToRad(float deg)`. -/
def degToRad (pi : α) (deg : α) : α := deg / radMultiplier pi

/-- The values `main` builds before it prints: `angle`, `p`, `q1`, `q2`. -/
structure DemoInputs (α : Type) where
  angle : α
  p : Quaternion α
  q1 : Quaternion α
  q2 : Quaternion α

/-- The first four statements of `main`. -/
def mainInputs (pi : α) (sqrt cos sin : α → α) : DemoInputs α :=
  let angle := degToRad pi 45
  let p : Quaternion α := ⟨0, 0, 1, 1⟩
  let q1 := Quaternion.ofAxisAngle cos sin angle (Vector3f.normalize sqrt ⟨1, 0, 0⟩)
  let q2 := Quaternion.ofAxisAngle cos sin (-angle) ⟨1, 0, 0⟩
  ⟨angle, p, q1, q2⟩

/-- The function `main`, as the value it assigns by `p = q1 * p * q2` and then
prints; `*` associates to the left. -/
def main (pi : α) (sqrt cos sin : α → α) : Quaternion α :=
  let d := mainInputs pi sqrt cos sin
  (d.q1.multiply d.p).multiply d.q2

end Helpers

/-! ## The specification's formulas -/

/-- The Hamilton product as the specification writes it, component by
component, on the eight scalars. -/
def hamiltonFormula {α : Type} [Add α] [Sub α] [Mul α]
    (aw ax ay az bw bx by_ bz : α) : Quaternion α :=
  { w := aw * bw - ax * bx - ay * by_ - az * bz
    x := aw * bx + ax * bw + ay * bz - az * by_
    y := aw * by_ - ax * bz + ay * bw + az * bx
    z := aw * bz + ax * by_ - ay * bx + az * bw }

/-! ## Concrete memories -/

/-- A memory with the vector `(0, 0, 0)` at address `0` and `(1, 0, 0)` at
every other address. -/
def zeroAndUnitX : Vector3f.Store ℤ :=
  fun k => if k = 0 then ⟨0, 0, 0⟩ else ⟨1, 0, 0⟩

/-- A memory with the vector `(1, 2, 3)` at address `0` and `(4, 5, 6)` at
every other address. -/
def sampleStore : Vector3f.Store ℤ :=
  fun k => if k = 0 then ⟨1, 2, 3⟩ else ⟨4, 5, 6⟩

/-! ## The scalar with IEEE-754 special values -/

/-- Modelled from the spec: the `float` scalar with the IEEE-754 special
values the spec names (`NaN`, `±Inf`) and a signed zero.  A finite value is a
sign bit and a magnitude; finite products and quotients are exact, so rounding,
overflow and underflow are left out.  They play no part in `x * 1`, `x * 0`
and `x / 0`, where this arithmetic is that of binary32. -/
inductive Ieee where
  | nan : Ieee
  | inf (neg : Bool) : Ieee
  | fin (neg : Bool) (mag : NNRat) : Ieee
  deriving DecidableEq

namespace Ieee

/-- IEEE-754 multiplication: `NaN` propagates, `Inf * 0` is `NaN`, and the
sign of every other product is the exclusive or of the operands' signs. -/
def mul : Ieee → Ieee → Ieee
  | nan, _ => nan
  | _, nan => nan
  | inf s, inf t => inf (xor s t)
  | inf s, fin t m => if m = 0 then nan else inf (xor s t)
  | fin s m, inf t => if m = 0 then nan else inf (xor s t)
  | fin s m, fin t n => fin (xor s t) (m * n)

/-- IEEE-754 division: `NaN` propagates, `Inf / Inf` and `0 / 0` are `NaN`, a
nonzero value over a zero is an infinity, a finite value over an infinity is
a zero, and signs combine by exclusive or. -/
def div : Ieee → Ieee → Ieee
  | nan, _ => nan
  | _, nan => nan
  | inf _, inf _ => nan
  | inf s, fin t _ => inf (xor s t)
  | fin s _, inf t => fin (xor s t) 0
  | fin s m, fin t n =>
      if n = 0 then (if m = 0 then nan else inf (xor s t)) else fin (xor s t) (m / n)

instance : Mul Ieee := ⟨mul⟩

instance : Div Ieee := ⟨div⟩

/-- The literal `0.0f`: positive zero. -/
instance : Zero Ieee := ⟨fin false 0⟩

/-- The literal `1.0f`. -/
instance : One Ieee := ⟨fin false 1⟩

/-- Whether a value is finite, as `std::isfinite`. -/
def isFinite : Ieee → Bool
  | fin _ _ => true
  | _ => false

/-- Whether a value is an infinity or a `NaN`, as `std::isinf` or `std::isnan`. -/
def isInfOrNaN : Ieee → Bool
  | fin _ _ => false
  | _ => true

/-- Whether a value is a zero of either sign, as the comparison `x == 0.0f`. -/
def isZero : Ieee → Bool
  | fin _ m => decide (m = 0)
  | _ => false

end Ieee

/-! ## Theorems -/

/-- C1: for all quaternions `a` and `b`, `operator*` returns the quaternion
whose four components are those of the Hamilton-product formula of the
specification. -/
theorem multiply_eq_hamiltonFormula {α : Type} [Add α] [Sub α] [Mul α]
    (aw ax ay az bw bx by_ bz : α) :
    Quaternion.multiply ⟨aw, ax, ay, az⟩ ⟨bw, bx, by_, bz⟩
      = hamiltonFormula aw ax ay az bw bx by_ bz ∧
    (Quaternion.multiply ⟨aw, ax, ay, az⟩ ⟨bw, bx, by_, bz⟩).w
      = aw * bw - ax * bx - ay * by_ - az * bz ∧
    (Quaternion.multiply ⟨aw, ax, ay, az⟩ ⟨bw, bx, by_, bz⟩).x
      = aw * bx + ax * bw + ay * bz - az * by_ ∧
    (Quaternion.multiply ⟨aw, ax, ay, az⟩ ⟨bw, bx, by_, bz⟩).y
      = aw * by_ - ax * bz + ay * bw + az * bx ∧
    (Quaternion.multiply ⟨aw, ax, ay, az⟩ ⟨bw, bx, by_, bz⟩).z
      = aw * bz + ax * by_ - ay * bx + az * bw :=
  ⟨rfl, rfl, rfl, rfl, rfl⟩

/-- C2: the Hamilton product of `operator*` is associative over every
commutative ring of scalars, the real numbers among them. -/
theorem multiply_assoc {α : Type} [CommRing α] (p q r : Quaternion α) :
    (p.multiply q).multiply r = p.multiply (q.multiply r) := by
  simp only [Quaternion.multiply, Quaternion.mk.injEq]
  refine ⟨?_, ?_, ?_, ?_⟩ <;> ring

/-- C3: over the reals the axis-angle constructor stores `w = cos angle` and
the vector part `axis * sin angle`, the angle not halved; at `π / 4` about
`(1, 0, 0)` this is `w = x = √2 / 2`, `y = z = 0`. -/
theorem ofAxisAngle_components :
    (∀ (angle : ℝ) (axis : Vector3f ℝ),
      Quaternion.ofAxisAngle Real.cos Real.sin angle axis
        = ⟨Real.cos angle, axis.x * Real.sin angle, axis.y * Real.sin angle,
            axis.z * Real.sin angle⟩) ∧
    Quaternion.ofAxisAngle Real.cos Real.sin (Real.pi / 4) ⟨1, 0, 0⟩
      = ⟨Real.sqrt 2 / 2, Real.sqrt 2 / 2, 0, 0⟩ := by
  refine ⟨fun _ _ => rfl, ?_⟩
  simp [Quaternion.ofAxisAngle, Vector3f.scaleInPlace]

/-- C4: over the reals, a quaternion built by the axis-angle constructor from
an axis of unit length has unit norm, `w² + x² + y² + z² = 1`. -/
theorem ofAxisAngle_unit_norm (angle : ℝ) (axis : Vector3f ℝ)
    (haxis : axis.x ^ 2 + axis.y ^ 2 + axis.z ^ 2 = 1) :
    (Quaternion.ofAxisAngle Real.cos Real.sin angle axis).w ^ 2
      + (Quaternion.ofAxisAngle Real.cos Real.sin angle axis).x ^ 2
      + (Quaternion.ofAxisAngle Real.cos Real.sin angle axis).y ^ 2
      + (Quaternion.ofAxisAngle Real.cos Real.sin angle axis).z ^ 2 = 1 := by
  have hcs := Real.sin_sq_add_cos_sq angle
  simp only [Quaternion.ofAxisAngle, Vector3f.scaleInPlace]
  calc Real.cos angle ^ 2 + (axis.x * Real.sin angle) ^ 2 + (axis.y * Real.sin angle) ^ 2
        + (axis.z * Real.sin angle) ^ 2
      = Real.cos angle ^ 2
        + (axis.x ^ 2 + axis.y ^ 2 + axis.z ^ 2) * Real.sin angle ^ 2 := by ring
    _ = Real.cos angle ^ 2 + Real.sin angle ^ 2 := by rw [haxis, one_mul]
    _ = 1 := by rw [add_comm]; exact hcs

/-- C4 at the unit axis `(3/5, 4/5, 0)` and the angle `1`. -/
theorem ofAxisAngle_unit_norm_witness :
    (⟨3 / 5, 4 / 5, 0⟩ : Vector3f ℝ).x ^ 2 + (⟨3 / 5, 4 / 5, 0⟩ : Vector3f ℝ).y ^ 2
        + (⟨3 / 5, 4 / 5, 0⟩ : Vector3f ℝ).z ^ 2 = 1 ∧
    (Quaternion.ofAxisAngle Real.cos Real.sin 1 ⟨3 / 5, 4 / 5, 0⟩).w ^ 2
      + (Quaternion.ofAxisAngle Real.cos Real.sin 1 ⟨3 / 5, 4 / 5, 0⟩).x ^ 2
      + (Quaternion.ofAxisAngle Real.cos Real.sin 1 ⟨3 / 5, 4 / 5, 0⟩).y ^ 2
      + (Quaternion.ofAxisAngle Real.cos Real.sin 1 ⟨3 / 5, 4 / 5, 0⟩).z ^ 2 = 1 :=
  ⟨by norm_num, ofAxisAngle_unit_norm 1 ⟨3 / 5, 4 / 5, 0⟩ (by norm_num)⟩

/-- The demo angle: `degToRad 45` is `π / 4` in exact arithmetic. -/
lemma degToRad_fortyFive : degToRad Real.pi 45 = Real.pi / 4 := by
  unfold degToRad radMultiplier
  field_simp
  ring

/-- The demo axis: normalising `(1, 0, 0)` returns `(1, 0, 0)`. -/
lemma normalize_unitX : Vector3f.normalize Real.sqrt (⟨1, 0, 0⟩ : Vector3f ℝ) = ⟨1, 0, 0⟩ := by
  simp [Vector3f.normalize, Vector3f.divide]

/-- C5: in the demo of `main`, with `p = (0, 0, 1, 1)`, `angle = π / 4`,
`q1 = Quaternion(angle, (1,0,0))` and `q2 = Quaternion(-angle, (1,0,0))`, the
value `(q1 * p) * q2` is the Hamilton-product formula applied twice, and in
exact arithmetic it is `(0, 0, -1, 1)`. -/
theorem main_demo_result :
    (mainInputs Real.pi Real.sqrt Real.cos Real.sin).angle = Real.pi / 4 ∧
    (mainInputs Real.pi Real.sqrt Real.cos Real.sin).p = ⟨0, 0, 1, 1⟩ ∧
    (mainInputs Real.pi Real.sqrt Real.cos Real.sin).q1
      = Quaternion.ofAxisAngle Real.cos Real.sin (Real.pi / 4) ⟨1, 0, 0⟩ ∧
    (mainInputs Real.pi Real.sqrt Real.cos Real.sin).q2
      = Quaternion.ofAxisAngle Real.cos Real.sin (-(Real.pi / 4)) ⟨1, 0, 0⟩ ∧
    main Real.pi Real.sqrt Real.cos Real.sin
      = hamiltonFormula
          (hamiltonFormula (Real.sqrt 2 / 2) (Real.sqrt 2 / 2) 0 0 0 0 1 1).w
          (hamiltonFormula (Real.sqrt 2 / 2) (Real.sqrt 2 / 2) 0 0 0 0 1 1).x
          (hamiltonFormula (Real.sqrt 2 / 2) (Real.sqrt 2 / 2) 0 0 0 0 1 1).y
          (hamiltonFormula (Real.sqrt 2 / 2) (Real.sqrt 2 / 2) 0 0 0 0 1 1).z
          (Real.sqrt 2 / 2) (-(Real.sqrt 2 / 2)) 0 0 ∧
    main Real.pi Real.sqrt Real.cos Real.sin = ⟨0, 0, -1, 1⟩ := by
  have hq1 : (mainInputs Real.pi Real.sqrt Real.cos Real.sin).q1
      = ⟨Real.sqrt 2 / 2, Real.sqrt 2 / 2, 0, 0⟩ := by
    simp only [mainInputs, degToRad_fortyFive, normalize_unitX]
    simp [Quaternion.ofAxisAngle, Vector3f.scaleInPlace]
  have hq2 : (mainInputs Real.pi Real.sqrt Real.cos Real.sin).q2
      = ⟨Real.sqrt 2 / 2, -(Real.sqrt 2 / 2), 0, 0⟩ := by
    simp only [mainInputs, degToRad_fortyFive]
    simp [Quaternion.ofAxisAngle, Vector3f.scaleInPlace]
  have hp : (mainInputs Real.pi Real.sqrt Real.cos Real.sin).p = ⟨0, 0, 1, 1⟩ := rfl
  have h2 : Real.sqrt 2 * Real.sqrt 2 = 2 := Real.mul_self_sqrt (by norm_num)
  refine ⟨degToRad_fortyFive, rfl, ?_, ?_, ?_, ?_⟩
  · simp only [mainInputs, degToRad_fortyFive, normalize_unitX]
  · simp only [mainInputs, degToRad_fortyFive]
  · simp only [main, hq1, hq2, hp]
    rfl
  · simp only [main, hq1, hq2, hp, Quaternion.multiply, Quaternion.mk.injEq]
    refine ⟨by ring, by ring, ?_, ?_⟩
    · linear_combination (-1 / 2 : ℝ) * h2
    · linear_combination (1 / 2 : ℝ) * h2

/-- C6: with `a = (0, 0, 0)` and `b = (1, 0, 0)`, `a += b` leaves `(1, 0, 1)`
in `a` while `a + b` is `(1, 0, 0)`: the receiver is not the component-wise
sum. -/
theorem addInPlace_differs_from_add :
    Vector3f.addInPlace zeroAndUnitX 0 1 0 = ⟨1, 0, 1⟩ ∧
    (zeroAndUnitX 0).add (zeroAndUnitX 1) = ⟨1, 0, 0⟩ ∧
    Vector3f.addInPlace zeroAndUnitX 0 1 0 ≠ (zeroAndUnitX 0).add (zeroAndUnitX 1) := by
  decide

/-- C7: when the receiver and the right operand are two objects, `operator+=`
leaves `x + b.x`, `y + b.y` and `z + b.x` in the receiver, and the right
operand, like every other object, is unchanged. -/
theorem addInPlace_receiver {α : Type} [Add α] (s : Vector3f.Store α) (self rhb : Nat)
    (hne : self ≠ rhb) :
    Vector3f.addInPlace s self rhb self
      = ⟨(s self).x + (s rhb).x, (s self).y + (s rhb).y, (s self).z + (s rhb).x⟩ ∧
    Vector3f.addInPlace s self rhb rhb = s rhb ∧
    ∀ k, k ≠ self → Vector3f.addInPlace s self rhb k = s k := by
  have hne2 : rhb ≠ self := fun h => hne h.symm
  refine ⟨?_, ?_, ?_⟩
  · simp [Vector3f.addInPlace, Function.update_noteq hne2]
  · simp [Vector3f.addInPlace, Function.update_noteq hne2]
  · intro k hk
    simp [Vector3f.addInPlace, Function.update_noteq hk]

/-- C7 at the receiver `(1, 2, 3)` and the right operand `(4, 5, 6)`. -/
theorem addInPlace_receiver_witness :
    (0 : Nat) ≠ 1 ∧
    Vector3f.addInPlace sampleStore 0 1 0 = ⟨5, 7, 7⟩ ∧
    Vector3f.addInPlace sampleStore 0 1 1 = ⟨4, 5, 6⟩ :=
  ⟨by decide, (addInPlace_receiver sampleStore 0 1 (by decide)).1,
    (addInPlace_receiver sampleStore 0 1 (by decide)).2.1⟩

/-- When the right operand is the receiver itself (`v += v`), the third
assignment reads the `x` that the first one has already doubled. -/
lemma addInPlace_aliased {α : Type} [Add α] (s : Vector3f.Store α) (self : Nat) :
    Vector3f.addInPlace s self self self
      = ⟨(s self).x + (s self).x, (s self).y + (s self).y,
          (s self).z + ((s self).x + (s self).x)⟩ := by
  simp [Vector3f.addInPlace]

/-- C8: `hamilton` and `operator*` return the same quaternion on all inputs. -/
theorem hamilton_eq_multiply {α : Type} [Add α] [Sub α] [Mul α] (a b : Quaternion α) :
    a.hamilton b = a.multiply b ∧
    (a.hamilton b).w = (a.multiply b).w ∧ (a.hamilton b).x = (a.multiply b).x ∧
    (a.hamilton b).y = (a.multiply b).y ∧ (a.hamilton b).z = (a.multiply b).z :=
  ⟨rfl, rfl, rfl, rfl, rfl⟩

/-- C9: the Hamilton product does not commute: over the reals
`(0,1,0,0) * (0,0,1,0) = (0,0,0,1)` and `(0,0,1,0) * (0,1,0,0) = (0,0,0,-1)`. -/
theorem multiply_not_comm :
    Quaternion.multiply (⟨0, 1, 0, 0⟩ : Quaternion ℝ) ⟨0, 0, 1, 0⟩ = ⟨0, 0, 0, 1⟩ ∧
    Quaternion.multiply (⟨0, 0, 1, 0⟩ : Quaternion ℝ) ⟨0, 1, 0, 0⟩ = ⟨0, 0, 0, -1⟩ ∧
    ∃ a b : Quaternion ℝ, a.multiply b ≠ b.multiply a := by
  refine ⟨by simp [Quaternion.multiply], by simp [Quaternion.multiply], ?_⟩
  refine ⟨⟨0, 1, 0, 0⟩, ⟨0, 0, 1, 0⟩, ?_⟩
  simp only [Quaternion.multiply, ne_eq, Quaternion.mk.injEq, not_and]
  norm_num

/-- C10: over every commutative ring of scalars `cross a b` is `cross b a`
scaled by `-1`, component by component its negation, and `cross` has the
component formula of the specification. -/
theorem cross_anticomm {α : Type} [CommRing α] (a b : Vector3f α) :
    a.cross b = (b.cross a).scale (-1) ∧
    a.cross b = ⟨-(b.cross a).x, -(b.cross a).y, -(b.cross a).z⟩ ∧
    a.cross b = ⟨a.y * b.z - a.z * b.y, a.z * b.x - a.x * b.z, a.x * b.y - a.y * b.x⟩ := by
  refine ⟨?_, ?_, rfl⟩
  · simp only [Vector3f.cross, Vector3f.scale, Vector3f.mk.injEq]
    refine ⟨?_, ?_, ?_⟩ <;> ring
  · simp only [Vector3f.cross, Vector3f.mk.injEq]
    refine ⟨?_, ?_, ?_⟩ <;> ring

/-- C11: `dot a b` equals `dot b a` whenever the scalar multiplication
commutes, and `dot` is `a.x*b.x + a.y*b.y + a.z*b.z`. -/
theorem dot_comm {α : Type} [Add α] [CommMagma α] (a b : Vector3f α) :
    a.dot b = b.dot a ∧ a.dot b = a.x * b.x + a.y * b.y + a.z * b.z := by
  refine ⟨?_, rfl⟩
  simp only [Vector3f.dot]
  rw [mul_comm a.x, mul_comm a.y, mul_comm a.z]

/-- A vector other than zero has a positive sum of squared components. -/
lemma sumSq_pos_of_ne_zero (a : Vector3f ℝ) (ha : a ≠ ⟨0, 0, 0⟩) :
    0 < a.x * a.x + a.y * a.y + a.z * a.z := by
  by_contra hle
  have hx := mul_self_nonneg a.x
  have hy := mul_self_nonneg a.y
  have hz := mul_self_nonneg a.z
  have hx0 : a.x = 0 := mul_self_eq_zero.mp (by linarith)
  have hy0 : a.y = 0 := mul_self_eq_zero.mp (by linarith)
  have hz0 : a.z = 0 := mul_self_eq_zero.mp (by linarith)
  apply ha
  cases a
  simp_all

/-- C12: over the reals, every vector other than the zero vector has a
normalisation of length `1`. -/
theorem length_normalize (a : Vector3f ℝ) (ha : a ≠ ⟨0, 0, 0⟩) :
    (a.normalize Real.sqrt).length Real.sqrt = 1 := by
  have hpos := sumSq_pos_of_ne_zero a ha
  have hd : Real.sqrt (a.x * a.x + a.y * a.y + a.z * a.z) ≠ 0 :=
    (Real.sqrt_pos.mpr hpos).ne.symm
  simp only [Vector3f.normalize, Vector3f.divide, Vector3f.length]
  rw [Real.sqrt_eq_one]
  field_simp

/-- C12 at the vector `(3, 4, 0)`. -/
theorem length_normalize_witness :
    (⟨3, 4, 0⟩ : Vector3f ℝ) ≠ ⟨0, 0, 0⟩ ∧
    (Vector3f.normalize Real.sqrt (⟨3, 4, 0⟩ : Vector3f ℝ)).length Real.sqrt = 1 :=
  ⟨by simp, length_normalize ⟨3, 4, 0⟩ (by simp)⟩

/-- C13: over the reals the value of `angleBetween`, computed as
`acos ((dot / length b) / length a)`, equals the standard form
`acos (dot / (length a * length b))`. -/
theorem angleBetween_standard (a b : Vector3f ℝ) :
    a.angleBetween Real.sqrt Real.arccos b
      = Real.arccos ((a.dot b / b.length Real.sqrt) / a.length Real.sqrt) ∧
    a.angleBetween Real.sqrt Real.arccos b
      = Real.arccos (a.dot b / (a.length Real.sqrt * b.length Real.sqrt)) := by
  refine ⟨rfl, ?_⟩
  simp only [Vector3f.angleBetween]
  rw [div_div, mul_comm]

/-- Over exact scalars, where `x * 1 = x` and `x * 0 = 0`, scaling by `1`
returns the vector or quaternion itself and scaling by `0` the zero one. -/
lemma scale_one_zero_exact {α : Type} [MulZeroOneClass α] (a : Vector3f α)
    (q : Quaternion α) :
    a.scale 1 = a ∧ q.scale 1 = q ∧ a.scale 0 = ⟨0, 0, 0⟩ ∧ q.scale 0 = ⟨0, 0, 0, 0⟩ := by
  refine ⟨?_, ?_, ?_, ?_⟩
  · simp [Vector3f.scale]
  · simp [Quaternion.scale]
  · simp [Vector3f.scale]
  · simp [Quaternion.scale]

/-- Multiplying any value by `1.0f` returns that value. -/
lemma Ieee.mul_one_eq (x : Ieee) : x * 1 = x := by
  show Ieee.mul x (Ieee.fin false 1) = x
  cases x <;> simp [Ieee.mul]

/-- Multiplying a finite value by `0.0f` gives a zero. -/
lemma Ieee.isZero_mul_zero (x : Ieee) (hx : x.isFinite = true) : (x * 0).isZero = true := by
  show (Ieee.mul x (Ieee.fin false 0)).isZero = true
  cases x <;> simp_all [Ieee.mul, Ieee.isFinite, Ieee.isZero]

/-- Dividing any value by a zero of either sign gives an infinity or a `NaN`. -/
lemma Ieee.isInfOrNaN_div_zero (x : Ieee) (neg : Bool) :
    (x / Ieee.fin neg 0).isInfOrNaN = true := by
  show (Ieee.div x (Ieee.fin neg 0)).isInfOrNaN = true
  cases x with
  | nan => simp [Ieee.div, Ieee.isInfOrNaN]
  | inf s => simp [Ieee.div, Ieee.isInfOrNaN]
  | fin s m =>
    by_cases hm : m = 0 <;> simp [Ieee.div, Ieee.isInfOrNaN, hm]

/-- C15: `getScalarPart` returns `w` and `getVectorPart` returns the vector of
the scalars `x, y, z`, for a quaternion built by either constructor: the
direct one gives `Vector3f(x, y, z)`, the axis-angle one `axis * sin angle`
next to the scalar part `cos angle`. -/
theorem getVectorPart_in_sync {α : Type} [Mul α] (a : Quaternion α) :
    a.getScalarPart = a.w ∧ a.getVectorPart = ⟨a.x, a.y, a.z⟩ ∧
    (a.getVectorPart.x = a.x ∧ a.getVectorPart.y = a.y ∧ a.getVectorPart.z = a.z) ∧
    (∀ w x y z : α, Quaternion.getVectorPart ⟨w, x, y, z⟩ = ⟨x, y, z⟩ ∧
      Quaternion.getScalarPart (⟨w, x, y, z⟩ : Quaternion α) = w) ∧
    (∀ (cos sin : α → α) (angle : α) (axis : Vector3f α),
      (Quaternion.ofAxisAngle cos sin angle axis).getVectorPart = axis.scale (sin angle) ∧
      (Quaternion.ofAxisAngle cos sin angle axis).getScalarPart = cos angle) :=
  ⟨rfl, rfl, ⟨rfl, rfl, rfl⟩, fun _ _ _ _ => ⟨rfl, rfl⟩, fun _ _ _ _ => ⟨rfl, rfl⟩⟩

/-- C16: `operator+(float)` and `operator-(float)` change `w` by `d` and leave
the vector part `(x, y, z)` as it was. -/
theorem addScalar_subtractScalar_frame {α : Type} [Add α] [Sub α] (a : Quaternion α) (d : α) :
    (a.addScalar d).w = a.w + d ∧ (a.subtractScalar d).w = a.w - d ∧
    (a.addScalar d).getVectorPart = a.getVectorPart ∧
    (a.subtractScalar d).getVectorPart = a.getVectorPart ∧
    a.addScalar d = ⟨a.w + d, a.x, a.y, a.z⟩ ∧
    a.subtractScalar d = ⟨a.w - d, a.x, a.y, a.z⟩ :=
  ⟨rfl, rfl, rfl, rfl, rfl, rfl⟩

/-- C18: over the reals `radToDeg` multiplies and `degToRad` divides by
`180 / π`, so `degToRad 180 = π`, `degToRad 45 = π / 4`, and the two
conversions undo each other. -/
theorem degToRad_radToDeg :
    (∀ r : ℝ, radToDeg Real.pi r = r * (180 / Real.pi)) ∧
    (∀ d : ℝ, degToRad Real.pi d = d / (180 / Real.pi)) ∧
    degToRad Real.pi 180 = Real.pi ∧
    degToRad Real.pi 45 = Real.pi / 4 ∧
    (∀ d : ℝ, radToDeg Real.pi (degToRad Real.pi d) = d) ∧
    (∀ d : ℝ, degToRad Real.pi (radToDeg Real.pi d) = d) := by
  have hpi := Real.pi_ne_zero
  refine ⟨fun _ => rfl, fun _ => rfl, ?_, degToRad_fortyFive, ?_, ?_⟩
  · unfold degToRad radMultiplier
    field_simp
  · intro d
    unfold radToDeg degToRad radMultiplier
    field_simp
  · intro d
    unfold radToDeg degToRad radMultiplier
    field_simp

/-- C19: the squared norm `w² + x² + y² + z²` is multiplicative under the
Hamilton product over every commutative ring, so the product of two
quaternions of unit norm has unit norm. -/
theorem normSq_multiply {α : Type} [CommRing α] (a b : Quaternion α) :
    ((a.multiply b).w ^ 2 + (a.multiply b).x ^ 2 + (a.multiply b).y ^ 2
        + (a.multiply b).z ^ 2
      = (a.w ^ 2 + a.x ^ 2 + a.y ^ 2 + a.z ^ 2) * (b.w ^ 2 + b.x ^ 2 + b.y ^ 2 + b.z ^ 2)) ∧
    (a.w ^ 2 + a.x ^ 2 + a.y ^ 2 + a.z ^ 2 = 1 →
      b.w ^ 2 + b.x ^ 2 + b.y ^ 2 + b.z ^ 2 = 1 →
      (a.multiply b).w ^ 2 + (a.multiply b).x ^ 2 + (a.multiply b).y ^ 2
        + (a.multiply b).z ^ 2 = 1) := by
  have hmul : (a.multiply b).w ^ 2 + (a.multiply b).x ^ 2 + (a.multiply b).y ^ 2
        + (a.multiply b).z ^ 2
      = (a.w ^ 2 + a.x ^ 2 + a.y ^ 2 + a.z ^ 2)
        * (b.w ^ 2 + b.x ^ 2 + b.y ^ 2 + b.z ^ 2) := by
    simp only [Quaternion.multiply]
    ring
  refine ⟨hmul, fun ha hb => ?_⟩
  rw [hmul, ha, hb, mul_one]

/-- C19 at the unit quaternions `(3/5, 4/5, 0, 0)` and `(0, 0, 1, 0)` over the
reals. -/
theorem normSq_multiply_witness :
    (Quaternion.multiply (⟨3 / 5, 4 / 5, 0, 0⟩ : Quaternion ℝ) ⟨0, 0, 1, 0⟩).w ^ 2
      + (Quaternion.multiply (⟨3 / 5, 4 / 5, 0, 0⟩ : Quaternion ℝ) ⟨0, 0, 1, 0⟩).x ^ 2
      + (Quaternion.multiply (⟨3 / 5, 4 / 5, 0, 0⟩ : Quaternion ℝ) ⟨0, 0, 1, 0⟩).y ^ 2
      + (Quaternion.multiply (⟨3 / 5, 4 / 5, 0, 0⟩ : Quaternion ℝ) ⟨0, 0, 1, 0⟩).z ^ 2 = 1 :=
  (normSq_multiply (⟨3 / 5, 4 / 5, 0, 0⟩ : Quaternion ℝ) ⟨0, 0, 1, 0⟩).2
    (by norm_num) (by norm_num)

/-- C20: over the reals, for a unit axis `u`, the conjugation
`Quaternion(t, u) * Quaternion(0, v.x, v.y, v.z) * Quaternion(-t, u)` has
scalar part `0` and vector part `v` rotated about `u` by the angle `2 t`:
`v * cos (2t) + cross(u, v) * sin (2t) + u * dot(u, v) * (1 - cos (2t))`. -/
theorem conjugation_rotates_by_double_angle (t : ℝ) (u v : Vector3f ℝ)
    (hu : u.x ^ 2 + u.y ^ 2 + u.z ^ 2 = 1) :
    (((Quaternion.ofAxisAngle Real.cos Real.sin t u).multiply ⟨0, v.x, v.y, v.z⟩).multiply
        (Quaternion.ofAxisAngle Real.cos Real.sin (-t) u)).getScalarPart = 0 ∧
    (((Quaternion.ofAxisAngle Real.cos Real.sin t u).multiply ⟨0, v.x, v.y, v.z⟩).multiply
        (Quaternion.ofAxisAngle Real.cos Real.sin (-t) u)).getVectorPart
      = ((v.scale (Real.cos (2 * t))).add ((u.cross v).scale (Real.sin (2 * t)))).add
          ((u.scale (u.dot v)).scale (1 - Real.cos (2 * t))) := by
  have hcs : Real.cos t ^ 2 + Real.sin t ^ 2 = 1 := Real.cos_sq_add_sin_sq t
  simp only [Quaternion.ofAxisAngle, Vector3f.scaleInPlace, Quaternion.multiply,
    Quaternion.getScalarPart, Quaternion.getVectorPart, Quaternion.v, Vector3f.scale,
    Vector3f.add, Vector3f.cross, Vector3f.dot, Real.cos_neg, Real.sin_neg,
    Real.cos_two_mul, Real.sin_two_mul, Vector3f.mk.injEq]
  refine ⟨by ring, ?_, ?_, ?_⟩
  · linear_combination
      (-v.x + 2 * u.x * (u.x * v.x + u.y * v.y + u.z * v.z)) * hcs
        - v.x * Real.sin t ^ 2 * hu
  · linear_combination
      (-v.y + 2 * u.y * (u.x * v.x + u.y * v.y + u.z * v.z)) * hcs
        - v.y * Real.sin t ^ 2 * hu
  · linear_combination
      (-v.z + 2 * u.z * (u.x * v.x + u.y * v.y + u.z * v.z)) * hcs
        - v.z * Real.sin t ^ 2 * hu

/-- C20 at the demo: `t = π / 4`, `u = (1, 0, 0)`, `v = (0, 1, 1)`. -/
theorem conjugation_rotates_by_double_angle_witness :
    (⟨1, 0, 0⟩ : Vector3f ℝ).x ^ 2 + (⟨1, 0, 0⟩ : Vector3f ℝ).y ^ 2
        + (⟨1, 0, 0⟩ : Vector3f ℝ).z ^ 2 = 1 ∧
    (((Quaternion.ofAxisAngle Real.cos Real.sin (Real.pi / 4) ⟨1, 0, 0⟩).multiply
        ⟨0, 0, 1, 1⟩).multiply
        (Quaternion.ofAxisAngle Real.cos Real.sin (-(Real.pi / 4)) ⟨1, 0, 0⟩)).getVectorPart
      = ⟨0, -1, 1⟩ := by
  refine ⟨by norm_num, ?_⟩
  have h := (conjugation_rotates_by_double_angle (Real.pi / 4) ⟨1, 0, 0⟩ ⟨0, 1, 1⟩
    (by norm_num)).2
  have h2 : 2 * (Real.pi / 4) = Real.pi / 2 := by ring
  rw [h, h2, Real.cos_pi_div_two, Real.sin_pi_div_two]
  simp [Vector3f.scale, Vector3f.add, Vector3f.cross, Vector3f.dot]

/-- C17: dividing a vector or a quaternion by a zero scalar of either sign
returns a value, with no failure, and every component of it is an infinity or
a `NaN`. -/
theorem divide_by_zero_components (neg : Bool) (a : Vector3f Ieee) (q : Quaternion Ieee) :
    ((a.divide (Ieee.fin neg 0)).x.isInfOrNaN = true
      ∧ (a.divide (Ieee.fin neg 0)).y.isInfOrNaN = true
      ∧ (a.divide (Ieee.fin neg 0)).z.isInfOrNaN = true) ∧
    ((q.divide (Ieee.fin neg 0)).w.isInfOrNaN = true
      ∧ (q.divide (Ieee.fin neg 0)).x.isInfOrNaN = true
      ∧ (q.divide (Ieee.fin neg 0)).y.isInfOrNaN = true
      ∧ (q.divide (Ieee.fin neg 0)).z.isInfOrNaN = true) ∧
    a.divide 0 = ⟨a.x / 0, a.y / 0, a.z / 0⟩ ∧
    q.divide 0 = ⟨q.w / 0, q.x / 0, q.y / 0, q.z / 0⟩ :=
  ⟨⟨Ieee.isInfOrNaN_div_zero a.x neg, Ieee.isInfOrNaN_div_zero a.y neg,
      Ieee.isInfOrNaN_div_zero a.z neg⟩,
    ⟨Ieee.isInfOrNaN_div_zero q.w neg, Ieee.isInfOrNaN_div_zero q.x neg,
      Ieee.isInfOrNaN_div_zero q.y neg, Ieee.isInfOrNaN_div_zero q.z neg⟩,
    rfl, rfl⟩

/-- An instance of division by zero: `(1, -2, 0) / 0.0f` is `(+Inf, -Inf, NaN)`. -/
lemma divide_by_zero_example :
    Vector3f.divide (⟨1, Ieee.fin true 2, 0⟩ : Vector3f Ieee) 0
      = ⟨Ieee.inf false, Ieee.inf true, Ieee.nan⟩ := by
  have h1 : (1 : Ieee) / 0 = Ieee.inf false := by
    show Ieee.div (Ieee.fin false 1) (Ieee.fin false 0) = Ieee.inf false
    simp [Ieee.div]
  have h2 : Ieee.fin true 2 / (0 : Ieee) = Ieee.inf true := by
    show Ieee.div (Ieee.fin true 2) (Ieee.fin false 0) = Ieee.inf true
    simp [Ieee.div]
  have h3 : (0 : Ieee) / 0 = Ieee.nan := by
    show Ieee.div (Ieee.fin false 0) (Ieee.fin false 0) = Ieee.nan
    simp [Ieee.div]
  simp only [Vector3f.divide, h1, h2, h3]

end Math3D
